import Mathlib

/-!
Verification development for the `minigrad` scalar reverse-mode autodiff engine
(`src/lib.rs`, `src/numeric.rs`).

Modelling choices, following the spec's scoping:
* Nodes live in an arena (`Graph := List Scalar`); operand references are arena
  indices (`_children : List Nat`).  This models Rust's `&'a Scalar` shared
  references: sharing is index sharing, and gradient mutation through shared
  references (the `Cell` fields of the source) is modelled by functional update
  of the arena entry.
* The source stores every float as a decimal sign/integer/fraction/digit-count
  quadruple (`split_f32` / `join_f32`).  The spec explicitly excludes this
  encoding as an internal representation detail, so the main model stores the
  value and the gradient as exact rationals (`ℚ`) and treats the encoding as
  the identity.  A second, separate model (`FVal`, below) captures the IEEE
  special values (infinity / NaN) and the actual `split_f32` control flow,
  which is what the division-by-zero claim is about.
* Rust panics are modelled by `Option`: `none` is a panic.
-/

namespace Minigrad

/-- The closed operation tag set of the source (`enum Operation`). -/
inductive Operation where
  | Add : Operation
  | Sub : Operation
  | Mul : Operation
  | Div : Operation
  | Base : Operation
deriving DecidableEq, Repr

/-- A node of the expression graph (`struct Scalar`): the stored value (the four
`data_*` fields joined into one exact rational), the operand indices
(`_children : Vec<&Scalar>` as arena indices), the accumulated gradient (the
four `_grad_*` `Cell` fields joined), the operation tag and the label. -/
structure Scalar where
  data : ℚ
  _children : List Nat
  grad : ℚ
  _op : Operation
  _label : String
deriving DecidableEq, Repr

/-- The arena holding the graph's nodes; a node reference is an index. -/
abbrev Graph := List Scalar

/-- Reads `join_data` of the node at index `i` (0 when the index is invalid, which
never happens for graphs built by the API). -/
def dataOf (g : Graph) (i : Nat) : ℚ :=
  ((g[i]?).map Scalar.data).getD 0

/-- Reads `join_grad` of the node at index `i`. -/
def gradOf (g : Graph) (i : Nat) : ℚ :=
  ((g[i]?).map Scalar.grad).getD 0

/-- Operand index list of the node at index `i`. -/
def childrenOf (g : Graph) (i : Nat) : List Nat :=
  ((g[i]?).map Scalar._children).getD []

/-- Constructor `Scalar::new`: a leaf node — no children, gradient cells `(1, 0, 0, 0)`,
which join to the gradient `0`, operation `Base`. -/
def Scalar.new (data : ℚ) (label : String) : Scalar :=
  { data := data, _children := [], grad := 0, _op := Operation.Base, _label := label }

/-- Constructor `Scalar::new_full`: a node built from a value, an operand list, an initial
gradient argument (which the source splits and stores into the gradient
cells), an operation tag and a label. -/
def Scalar.new_full (data : ℚ) (ch : List Nat) (grad : ℚ) (op : Operation)
    (label : String) : Scalar :=
  { data := data, _children := ch, grad := grad, _op := op, _label := label }

/-- Mutator `Scalar::update_grad`: overwrite the gradient cells of the node at index
`i` with (the split of) `v`.  Mutation through a shared reference in the
source; functional arena update here. -/
def update_grad (g : Graph) (i : Nat) (v : ℚ) : Graph :=
  match g[i]? with
  | some n => g.set i { n with grad := v }
  | none => g

/-- The derived `PartialEq` of `Scalar`: compares the value fields, the operand
vector (element-wise, dereferencing the shared references, hence recursively),
the gradient cells and the operation tag, and ignores `_label`
(`#[derivative(PartialEq = "ignore")]`).  The recursion through operand
references is fuelled; every call in the development supplies fuel
`g.length`, which is enough on well-formed graphs. -/
def scalarEq (g : Graph) : Nat → Nat → Nat → Bool
  | 0, _, _ => false
  | fuel + 1, i, j =>
    match g[i]?, g[j]? with
    | some ni, some nj =>
      decide (ni.data = nj.data) && decide (ni.grad = nj.grad) &&
      decide (ni._op = nj._op) &&
      decide (ni._children.length = nj._children.length) &&
      (ni._children.zip nj._children).all fun p => scalarEq g fuel p.1 p.2
    | _, _ => false

/-- One step of the scan over `curr_level[0]._children` in `parse_topology`:
`if !visited.contains(&n) { visited.push(n); curr_level.push(n);
topology.push(RefCell::new(n)); }`.  The state is
(visited, nodes pushed onto the level queue this round, topology). -/
def discover (g : Graph) (st : List Nat × List Nat × List Nat) (n : Nat) :
    List Nat × List Nat × List Nat :=
  if st.1.any fun v => scalarEq g g.length v n then st
  else (st.1 ++ [n], st.2.1 ++ [n], st.2.2 ++ [n])

/-- The `while curr_level.len() > 0` loop of `parse_topology`, fuelled (the
source loop terminates on every graph Rust can construct; fuel
`g.length + 1` is shown sufficient on well-formed graphs). -/
def parse_go (g : Graph) : Nat → List Nat → List Nat → List Nat → List Nat
  | 0, _, _, topo => topo
  | _ + 1, [], _, topo => topo
  | fuel + 1, c :: rest, vis, topo =>
    let st := (childrenOf g c).foldl (discover g) (vis, [], topo)
    parse_go g fuel (rest ++ st.2.1) st.1 st.2.2

/-- Function `parse_topology`: breadth-first level-order collection starting from the
root, dedup by the `visited` vector (membership tested with the structural
`PartialEq` above).  The root starts in `topology` and `curr_level` but not in
`visited`, exactly as in the source. -/
def parse_topology (g : Graph) (root : Nat) : List Nat :=
  parse_go g (g.length + 1) [root] [] [root]

/-- Method `Scalar::derive` (the `Derivable` impl): reads the node's own gradient,
returns immediately when it has no children, then unconditionally reads
`_children[0]` and `_children[1]`'s gradients before dispatching on the
operation tag (`none` models the index-out-of-bounds panic when there is
exactly one child).  Each arm adds the local-derivative contribution on top of
the gradients read *before* either write. -/
def derive (g : Graph) (i : Nat) : Option Graph :=
  match g[i]? with
  | none => some g
  | some n =>
    let p := n.grad
    if n._children.length = 0 then some g
    else
      match n._children[0]?, n._children[1]? with
      | some c0, some c1 =>
        let og0 := gradOf g c0
        let og1 := gradOf g c1
        match n._op with
        | Operation.Add =>
          some (update_grad (update_grad g c0 (og0 + p)) c1 (og1 + p))
        | Operation.Sub =>
          some (update_grad (update_grad g c0 (og0 + p)) c1 (og1 + p * (-1)))
        | Operation.Mul =>
          let od0 := dataOf g c0
          let od1 := dataOf g c1
          some (update_grad (update_grad g c0 (og0 + p * od1)) c1 (og1 + p * od0))
        | Operation.Div =>
          let od0 := dataOf g c0
          let od1 := dataOf g c1
          some (update_grad (update_grad g c0 (og0 + p * 1 / od1)) c1
            (og1 - p * od0 / od1 ^ 2))
        | Operation.Base => some g
      | _, _ => none

/-- The `for s in topology.iter()` loop of `backward`: derive each node in the
topology order, short-circuiting on a panic. -/
def run_backward (g : Graph) : List Nat → Option Graph
  | [] => some g
  | i :: rest =>
    match derive g i with
    | some g2 => run_backward g2 rest
    | none => none

/-- Method `Scalar::backward`: overwrite the root's gradient with 1, compute the
topology of the updated graph, then derive every node in topology order. -/
def backward (g : Graph) (root : Nat) : Option Graph :=
  let g1 := update_grad g root 1
  run_backward g1 (parse_topology g1 root)

/-- Operator `impl ops::Add for &Scalar`: appends
`new_full(a.join_data() + b.join_data(), vec![a, b], 0.0, Add, "")` to the
arena; returns the extended arena and the new node's index. -/
def scalarAdd (g : Graph) (i j : Nat) : Graph × Nat :=
  (g ++ [Scalar.new_full (dataOf g i + dataOf g j) [i, j] 0 Operation.Add ""],
    g.length)

/-- Operator `impl ops::Sub for &Scalar`. -/
def scalarSub (g : Graph) (i j : Nat) : Graph × Nat :=
  (g ++ [Scalar.new_full (dataOf g i - dataOf g j) [i, j] 0 Operation.Sub ""],
    g.length)

/-- Operator `impl ops::Mul for &Scalar`. -/
def scalarMul (g : Graph) (i j : Nat) : Graph × Nat :=
  (g ++ [Scalar.new_full (dataOf g i * dataOf g j) [i, j] 0 Operation.Mul ""],
    g.length)

/-- Operator `impl ops::Div for &Scalar` (exact-value model; the IEEE model is below). -/
def scalarDiv (g : Graph) (i j : Nat) : Graph × Nat :=
  (g ++ [Scalar.new_full (dataOf g i / dataOf g j) [i, j] 0 Operation.Div ""],
    g.length)

/-- Reachability along operand edges (a node reaches itself and everything
reachable from its operands). -/
inductive Reaches (g : Graph) : Nat → Nat → Prop where
  | refl : ∀ i, Reaches g i i
  | step : ∀ i j k, j ∈ childrenOf g i → Reaches g j k → Reaches g i k

/-- Well-formed arena: every operand index is strictly below the node's own
index (the source's construction-order acyclicity invariant; it also bounds
every operand index by the arena size). -/
def WF (g : Graph) : Prop :=
  ∀ i, i < g.length → ∀ c ∈ childrenOf g i, c < i

instance (g : Graph) : Decidable (WF g) := by
  unfold WF
  infer_instance

/-- The unfolding of a node into a label-free tree: the denotation of the
recursive structural `PartialEq` (proof infrastructure; `stub` marks fuel
exhaustion or an invalid index, neither of which occurs on well-formed graphs
with adequate fuel). -/
inductive STree where
  | stub : STree
  | mk : ℚ → ℚ → Operation → List STree → STree

/-- Unfold the node at index `i` into its structural tree, fuelled. -/
def shape (g : Graph) : Nat → Nat → STree
  | 0, _ => STree.stub
  | fuel + 1, i =>
    match g[i]? with
    | some n => STree.mk n.data n.grad n._op (n._children.map (shape g fuel))
    | none => STree.stub

/-! ### Fixture graphs used by the concrete theorems -/

/-- Build the two-leaf, one-operation graph `c = op(a, b)` through the
operator implementations; the root is index 2. -/
def mkOpGraph (op : Operation) (va vb : ℚ) (la lb : String) : Graph :=
  match op with
  | Operation.Add => (scalarAdd [Scalar.new va la, Scalar.new vb lb] 0 1).1
  | Operation.Sub => (scalarSub [Scalar.new va la, Scalar.new vb lb] 0 1).1
  | Operation.Mul => (scalarMul [Scalar.new va la, Scalar.new vb lb] 0 1).1
  | Operation.Div => (scalarDiv [Scalar.new va la, Scalar.new vb lb] 0 1).1
  | Operation.Base => []

/-- Adversarial two-path graph: `a = 1`, `b = 2`, `s = a + b`, `t = 4`,
`x = s + t`, `r = s + x`.  The shared non-leaf node `s` is reachable from the
root `r` (index 5) by a path of length 1 and a path of length 2. -/
def gTwoPath : Graph :=
  let g0 : Graph := [Scalar.new 1 "a", Scalar.new 2 "b"]
  let g1 := (scalarAdd g0 0 1).1
  let g2 := g1 ++ [Scalar.new 4 "t"]
  let g3 := (scalarAdd g2 2 3).1
  (scalarAdd g3 2 4).1

/-- Depth-two tree `r = (a + b) + t` with `a = 1`, `b = 2`, `t = 4`;
root at index 4. -/
def gDepthTwo : Graph :=
  let g0 : Graph := [Scalar.new 1 "a", Scalar.new 2 "b"]
  let g1 := (scalarAdd g0 0 1).1
  let g2 := g1 ++ [Scalar.new 4 "t"]
  (scalarAdd g2 2 3).1

/-- Two *distinct* leaves that are structurally identical (same value 3, no
operands, gradient 0) but carry different labels, summed: `c = a + b`.  Root
at index 2. -/
def gTwins : Graph := (scalarAdd [Scalar.new 3 "a", Scalar.new 3 "b"] 0 1).1

/-- Aliased operands: `c = a + a` (both operand references point to the same
node 0); root at index 1. -/
def gAlias (va : ℚ) (la : String) : Graph :=
  (scalarAdd [Scalar.new va la] 0 0).1

/-- A node with exactly one operand, as `Scalar::new_full` admits; root at
index 1. -/
def gUnary : Graph := [Scalar.new 5 "a", Scalar.new_full 5 [0] 0 Operation.Add "u"]

/-- The diamond graph of the spec's shared-subexpression scenario:
`a = -4`, `b = 2`, `c = a + b`, `d = a * b`, `e = d / c`, `f = 10`,
`g = f / e`; root at index 6. -/
def gDiamond : Graph :=
  let g0 : Graph := [Scalar.new (-4) "a", Scalar.new 2 "b"]
  let g1 := (scalarAdd g0 0 1).1
  let g2 := (scalarMul g1 0 1).1
  let g3 := (scalarDiv g2 3 2).1
  let g4 := g3 ++ [Scalar.new 10 "f"]
  (scalarDiv g4 5 4).1

/-! ### IEEE special-value model of `split_f32` and division

The main model stores exact rationals because the spec excludes the decimal
sign/integer/fraction/digit-count encoding.  The division-by-zero claim,
however, is precisely about what the source does with the IEEE values
`inf`/`NaN`, so here the float domain is modelled with its special values and
`split_f32` is translated including its string/parse panic path. -/

/-- An `f32` value: a finite exact value, one of the two infinities, or NaN. -/
inductive FVal where
  | fin : ℚ → FVal
  | inf : FVal
  | ninf : FVal
  | nan : FVal
deriving DecidableEq, Repr

/-- IEEE `f32` division, on the cases that arise from dividing two stored
node values: finite by finite (with the zero-denominator sign rules), and the
propagation rules for special operands. -/
def fdiv : FVal → FVal → FVal
  | FVal.nan, _ => FVal.nan
  | _, FVal.nan => FVal.nan
  | FVal.fin a, FVal.fin b =>
    if b = 0 then
      if a = 0 then FVal.nan
      else if 0 < a then FVal.inf else FVal.ninf
    else FVal.fin (a / b)
  | FVal.fin a, FVal.inf => if a < 0 then FVal.fin (-0) else FVal.fin 0
  | FVal.fin a, FVal.ninf => if a < 0 then FVal.fin 0 else FVal.fin (-0)
  | FVal.inf, FVal.fin b => if b < 0 then FVal.ninf else FVal.inf
  | FVal.ninf, FVal.fin b => if b < 0 then FVal.inf else FVal.ninf
  | FVal.inf, FVal.inf => FVal.nan
  | FVal.inf, FVal.ninf => FVal.nan
  | FVal.ninf, FVal.inf => FVal.nan
  | FVal.ninf, FVal.ninf => FVal.nan

/-- IEEE `f32::floor`: identity on the infinities and NaN. -/
def floorF : FVal → FVal
  | FVal.fin q => FVal.fin ⌊q⌋
  | x => x

/-- IEEE `==`: NaN compares unequal to everything, itself included. -/
def eqF : FVal → FVal → Bool
  | FVal.fin a, FVal.fin b => decide (a = b)
  | FVal.inf, FVal.inf => true
  | FVal.ninf, FVal.ninf => true
  | _, _ => false

/-- IEEE `<`: false whenever an operand is NaN. -/
def ltF : FVal → FVal → Bool
  | FVal.fin a, FVal.fin b => decide (a < b)
  | FVal.fin _, FVal.inf => true
  | FVal.ninf, FVal.fin _ => true
  | FVal.ninf, FVal.inf => true
  | _, _ => false

/-- IEEE `f32::abs`. -/
def absF : FVal → FVal
  | FVal.fin q => FVal.fin |q|
  | FVal.ninf => FVal.inf
  | x => x

/-- Rust's saturating `as u32` cast from `f32`: `+inf` saturates to
`u32::MAX`, negative values and `-inf` to 0, NaN to 0. -/
def castU32 : FVal → Nat
  | FVal.fin q => if q < 0 then 0 else min q.floor.toNat 4294967295
  | FVal.inf => 4294967295
  | _ => 0

/-- Smallest decimal exponent `d` with `q * 10 ^ d` integral (the length of
the fractional part of the decimal string Rust prints); every value an `f32`
prints has one below 400. -/
def decExp (q : ℚ) : Option Nat :=
  (List.range 400).find? fun d => decide ((q * 10 ^ d).den = 1)

/-- Function `Scalar::split_f32`, including its special-value behaviour: the sign from
IEEE `<`; integral values (the infinities included, since
`inf == inf.floor()`) go through the saturating `as u32` cast; everything
else goes through `to_string`/`split('.')`/`parse::<u32>()`, where NaN prints
as `"NaN"` and the parse `expect` panics (`none`), and a fractional or
integral part exceeding `u32::MAX` also fails to parse (`none`). -/
def split_f32 (x : FVal) : Option (Int × Nat × Nat × Nat) :=
  let sign : Int := if ltF x (FVal.fin 0) then -1 else 1
  if eqF x (floorF x) then
    some (sign, castU32 (absF x), 0, 1)
  else
    match x with
    | FVal.fin q =>
      match decExp q with
      | some d =>
        let intPart := (⌊|q|⌋).toNat
        let fracPart := ((|q| - ⌊|q|⌋) * 10 ^ d).num.toNat
        if intPart ≤ 4294967295 ∧ fracPart ≤ 4294967295 then
          some (sign, intPart, fracPart, d)
        else none
      | none => none
    | _ => none

/-- The four stored `data_*` fields of a freshly constructed node. -/
structure FScalar where
  data_sign : Int
  data_int : Nat
  data_frac : Nat
  data_digits : Nat
deriving DecidableEq, Repr

/-- Function `Scalar::join_f32` on the stored fields, read back exactly. -/
def join_f32 (s : FScalar) : ℚ :=
  (s.data_sign : ℚ) * ((s.data_int : ℚ) + (s.data_frac : ℚ) / 10 ^ s.data_digits)

/-- The data-field part of `Scalar::new_full`: split the computed value into
the four stored fields; `none` is the `split_f32` panic. -/
def new_data (x : FVal) : Option FScalar :=
  (split_f32 x).map fun q => FScalar.mk q.1 q.2.1 q.2.2.1 q.2.2.2

/-- Operator `impl ops::Div for &Scalar` on the stored-value level: divide the two
operand values and store the result through `new_full`'s `split_f32`. -/
def fdivNode (a b : FVal) : Option FScalar :=
  new_data (fdiv a b)

/-- The generic two-leaf one-operation graph with arbitrary stored value and
gradient fields; used to compute `backward` symbolically. -/
def pairGraph (op : Operation) (va vb vd ga gb gc : ℚ)
    (la lb lc : String) : Graph :=
  [{ data := va, _children := [], grad := ga, _op := Operation.Base, _label := la },
   { data := vb, _children := [], grad := gb, _op := Operation.Base, _label := lb },
   { data := vd, _children := [0, 1], grad := gc, _op := op, _label := lc }]

/-- Replace every node's label (node `i` gets label `ls i`), leaving value,
gradient, operands and operation untouched; used to state that the derived
`PartialEq` is label-independent on arbitrary graphs. -/
def relabel (g : Graph) (ls : Nat → String) : Graph :=
  g.mapIdx fun i n => { n with _label := ls i }

/-! ## Basic lemmas about the embedding -/

theorem update_grad_length (g : Graph) (i : Nat) (v : ℚ) :
    (update_grad g i v).length = g.length := by
  unfold update_grad
  cases h : g[i]? <;> simp

theorem gradOf_update_self (g : Graph) (i : Nat) (v : ℚ) (h : i < g.length) :
    gradOf (update_grad g i v) i = v := by
  unfold update_grad gradOf
  rcases hg : g[i]? with _ | n
  · simp [List.getElem?_eq_none_iff] at hg
    omega
  · simp [List.getElem?_set_self, h]

theorem gradOf_update_ne (g : Graph) (i j : Nat) (v : ℚ) (h : i ≠ j) :
    gradOf (update_grad g i v) j = gradOf g j := by
  unfold update_grad gradOf
  rcases hg : g[i]? with _ | n
  · rfl
  · simp [List.getElem?_set_ne h]

/-- A node with no operands is a no-op for `derive` (the early return). -/
theorem derive_leaf (g : Graph) (i : Nat) (n : Scalar) (h : g[i]? = some n)
    (hch : n._children = []) : derive g i = some g := by
  simp [derive, h, hch]

/-- Symbolic evaluation of `backward` on the two-leaf `Add` graph. -/
theorem backward_pairGraph_Add (va vb vd ga gb gc : ℚ) (la lb lc : String) :
    backward (pairGraph Operation.Add va vb vd ga gb gc la lb lc) 2 =
      some (pairGraph Operation.Add va vb vd (ga + 1) (gb + 1) 1 la lb lc) := by
  simp [backward, pairGraph, update_grad, parse_topology, parse_go, discover,
    childrenOf, derive, run_backward, gradOf, dataOf, scalarEq, List.set]
  split <;>
    simp [parse_go, discover, childrenOf, derive, run_backward, gradOf, dataOf,
      update_grad, List.set]

/-- Symbolic evaluation of `backward` on the two-leaf `Sub` graph. -/
theorem backward_pairGraph_Sub (va vb vd ga gb gc : ℚ) (la lb lc : String) :
    backward (pairGraph Operation.Sub va vb vd ga gb gc la lb lc) 2 =
      some (pairGraph Operation.Sub va vb vd (ga + 1) (gb - 1) 1 la lb lc) := by
  simp [backward, pairGraph, update_grad, parse_topology, parse_go, discover,
    childrenOf, derive, run_backward, gradOf, dataOf, scalarEq, List.set]
  split <;>
    simp [parse_go, discover, childrenOf, derive, run_backward, gradOf, dataOf,
      update_grad, List.set, sub_eq_add_neg]

/-- Symbolic evaluation of `backward` on the two-leaf `Mul` graph. -/
theorem backward_pairGraph_Mul (va vb vd ga gb gc : ℚ) (la lb lc : String) :
    backward (pairGraph Operation.Mul va vb vd ga gb gc la lb lc) 2 =
      some (pairGraph Operation.Mul va vb vd (ga + vb) (gb + va) 1 la lb lc) := by
  simp [backward, pairGraph, update_grad, parse_topology, parse_go, discover,
    childrenOf, derive, run_backward, gradOf, dataOf, scalarEq, List.set]
  split <;>
    simp [parse_go, discover, childrenOf, derive, run_backward, gradOf, dataOf,
      update_grad, List.set]

/-- Symbolic evaluation of `backward` on the two-leaf `Div` graph. -/
theorem backward_pairGraph_Div (va vb vd ga gb gc : ℚ) (la lb lc : String) :
    backward (pairGraph Operation.Div va vb vd ga gb gc la lb lc) 2 =
      some (pairGraph Operation.Div va vb vd (ga + 1 / vb) (gb - va / vb ^ 2)
        1 la lb lc) := by
  simp [backward, pairGraph, update_grad, parse_topology, parse_go, discover,
    childrenOf, derive, run_backward, gradOf, dataOf, scalarEq, List.set]
  split <;>
    simp [parse_go, discover, childrenOf, derive, run_backward, gradOf, dataOf,
      update_grad, List.set, sub_eq_add_neg]

theorem mkOpGraph_Add (va vb : ℚ) (la lb : String) :
    mkOpGraph Operation.Add va vb la lb =
      pairGraph Operation.Add va vb (va + vb) 0 0 0 la lb "" := rfl

theorem mkOpGraph_Sub (va vb : ℚ) (la lb : String) :
    mkOpGraph Operation.Sub va vb la lb =
      pairGraph Operation.Sub va vb (va - vb) 0 0 0 la lb "" := rfl

theorem mkOpGraph_Mul (va vb : ℚ) (la lb : String) :
    mkOpGraph Operation.Mul va vb la lb =
      pairGraph Operation.Mul va vb (va * vb) 0 0 0 la lb "" := rfl

theorem mkOpGraph_Div (va vb : ℚ) (la lb : String) :
    mkOpGraph Operation.Div va vb la lb =
      pairGraph Operation.Div va vb (va / vb) 0 0 0 la lb "" := rfl

/-- Model validation: on the spec's diamond scenario the embedding reproduces
exactly the gradients asserted by the source's own `test_compound_fn`. -/
theorem backward_diamond_matches_source_test :
    (backward gDiamond 6).map (fun gf => (List.range 7).map (gradOf gf)) =
      some [-(5/8), -(5/2), -(5/4), 5/16, -(5/8), 1/4, 1] := by
  with_unfolding_all rfl

/-! ## Claim theorems -/

/-- C1: the sequence `parse_topology` produces (and `backward` iterates) on the
two-path graph is the breadth-first level order `[5, 2, 4, 0, 1, 3]`, in which
the shared non-leaf node `s` (index 2) is processed *before* its consumer `x`
(index 4) even though `2 ∈ childrenOf g 4`; consequently `backward` ends with
`gradient_of(a) = 1`, a level-order partial sum, not the complete chain-rule
gradient `2` of `r = s + (s + t) = 2(a + b) + t`. -/
theorem claim_C1_level_order_not_reverse_post_order :
    parse_topology (update_grad gTwoPath 5 1) 5 = [5, 2, 4, 0, 1, 3]
    ∧ childrenOf gTwoPath 4 = [2, 3]
    ∧ (backward gTwoPath 5).map (fun gf => gradOf gf 0) = some 1
    ∧ (backward gTwoPath 5).map (fun gf => gradOf gf 0) ≠ some 2 := by
  refine ⟨by with_unfolding_all rfl, by with_unfolding_all rfl,
    by with_unfolding_all rfl, by with_unfolding_all decide⟩

/-- C2: on `c = op(a, b)` with leaf operands, `backward(c)` seeds
`gradient_of(c) = 1` and adds the local-derivative contribution of each
operation into the operands' gradients: `Add` gives `(1, 1)`, `Sub` gives
`(1, -1)`, `Mul` gives `(value_of(b), value_of(a))` — each for *all* leaf
values — and `Div` with `value_of(b) ≠ 0` gives
`(1/value_of(b), -value_of(a)/value_of(b)^2)` (exactly, in the exact-value
model). -/
theorem claim_C2_local_derivative_rules (va vb : ℚ) (la lb : String) :
    (backward (mkOpGraph Operation.Add va vb la lb) 2).map
        (fun gf => (gradOf gf 2, gradOf gf 0, gradOf gf 1)) = some (1, 1, 1)
    ∧ (backward (mkOpGraph Operation.Sub va vb la lb) 2).map
        (fun gf => (gradOf gf 2, gradOf gf 0, gradOf gf 1)) = some (1, 1, -1)
    ∧ (backward (mkOpGraph Operation.Mul va vb la lb) 2).map
        (fun gf => (gradOf gf 2, gradOf gf 0, gradOf gf 1)) = some (1, vb, va)
    ∧ (vb ≠ 0 →
        (backward (mkOpGraph Operation.Div va vb la lb) 2).map
          (fun gf => (gradOf gf 2, gradOf gf 0, gradOf gf 1)) =
          some (1, 1 / vb, -(va / vb ^ 2))) := by
  refine ⟨?_, ?_, ?_, fun hvb => ?_⟩
  · rw [mkOpGraph_Add, backward_pairGraph_Add]
    simp [gradOf, pairGraph]
  · rw [mkOpGraph_Sub, backward_pairGraph_Sub]
    simp [gradOf, pairGraph]
  · rw [mkOpGraph_Mul, backward_pairGraph_Mul]
    simp [gradOf, pairGraph]
  · rw [mkOpGraph_Div, backward_pairGraph_Div]
    simp [gradOf, pairGraph]

theorem claim_C2_witness :
    ((4 : ℚ) ≠ 0)
    ∧ (backward (mkOpGraph Operation.Div 3 4 "a" "b") 2).map
        (fun gf => (gradOf gf 2, gradOf gf 0, gradOf gf 1)) =
        some (1, 1 / 4, -(3 / 16))
    ∧ (backward (mkOpGraph Operation.Add 0 0 "a" "b") 2).map
        (fun gf => (gradOf gf 2, gradOf gf 0, gradOf gf 1)) = some (1, 1, 1) := by
  have h := claim_C2_local_derivative_rules 3 4 "a" "b"
  refine ⟨by norm_num, ?_, (claim_C2_local_derivative_rules 0 0 "a" "b").1⟩
  have h4 := h.2.2.2 (by norm_num)
  norm_num at h4 ⊢
  exact h4

/-- C3 counterexample: on the depth-two tree `r = (a + b) + t`, a single
`backward` gives leaf `a` gradient 1 and the root gradient 1, but two
`backward` calls give `a` gradient 3 (the second pass multiplies the un-reset
interior gradient of `a + b`) and the root gradient 1 (re-seeded, not
doubled), instead of the claimed exact doubles `(2, 2)`. -/
theorem claim_C3_counterexample :
    (backward gDepthTwo 4).map (fun gf => (gradOf gf 0, gradOf gf 4)) =
      some (1, 1)
    ∧ ((backward gDepthTwo 4).bind fun gf => backward gf 4).map
        (fun gf => (gradOf gf 0, gradOf gf 4)) = some (3, 1)
    ∧ ((backward gDepthTwo 4).bind fun gf => backward gf 4).map
        (fun gf => (gradOf gf 0, gradOf gf 4)) ≠ some (2 * 1, 2 * 1) := by
  refine ⟨by with_unfolding_all rfl, by with_unfolding_all rfl,
    by with_unfolding_all decide⟩

/-- C3 amended: gradients are accumulated, never reset — but exact doubling
only holds for the operand gradients of a depth-one graph, while the root's
gradient is overwritten back to 1 by the second call's seed (and deeper
graphs compound further, see the counterexample).  On `c = op(a, b)` with
leaf operands, two `backward` calls yield operand gradients exactly twice
the single-call ones and root gradient 1. -/
theorem claim_C3_amended_accumulation (va vb : ℚ) (la lb : String) :
    ((backward (mkOpGraph Operation.Add va vb la lb) 2).bind
        fun gf => backward gf 2).map
        (fun gf => (gradOf gf 2, gradOf gf 0, gradOf gf 1)) = some (1, 2, 2)
    ∧ ((backward (mkOpGraph Operation.Sub va vb la lb) 2).bind
        fun gf => backward gf 2).map
        (fun gf => (gradOf gf 2, gradOf gf 0, gradOf gf 1)) = some (1, 2, -2)
    ∧ ((backward (mkOpGraph Operation.Mul va vb la lb) 2).bind
        fun gf => backward gf 2).map
        (fun gf => (gradOf gf 2, gradOf gf 0, gradOf gf 1)) =
        some (1, 2 * vb, 2 * va)
    ∧ (vb ≠ 0 →
        ((backward (mkOpGraph Operation.Div va vb la lb) 2).bind
          fun gf => backward gf 2).map
          (fun gf => (gradOf gf 2, gradOf gf 0, gradOf gf 1)) =
          some (1, 2 * (1 / vb), 2 * -(va / vb ^ 2))) := by
  refine ⟨?_, ?_, ?_, fun hvb => ?_⟩
  · rw [mkOpGraph_Add, backward_pairGraph_Add]
    simp only [Option.some_bind]
    rw [backward_pairGraph_Add]
    simp [gradOf, pairGraph]
    norm_num
  · rw [mkOpGraph_Sub, backward_pairGraph_Sub]
    simp only [Option.some_bind]
    rw [backward_pairGraph_Sub]
    simp [gradOf, pairGraph]
    norm_num
  · rw [mkOpGraph_Mul, backward_pairGraph_Mul]
    simp only [Option.some_bind]
    rw [backward_pairGraph_Mul]
    simp [gradOf, pairGraph]
    constructor <;> ring
  · rw [mkOpGraph_Div, backward_pairGraph_Div]
    simp only [Option.some_bind]
    rw [backward_pairGraph_Div]
    simp [gradOf, pairGraph]
    constructor <;> ring

theorem claim_C3_amended_witness :
    ((4 : ℚ) ≠ 0)
    ∧ ((backward (mkOpGraph Operation.Div 3 4 "a" "b") 2).bind
        fun gf => backward gf 2).map
        (fun gf => (gradOf gf 2, gradOf gf 0, gradOf gf 1)) =
        some (1, 1 / 2, -(3 / 8))
    ∧ ((backward (mkOpGraph Operation.Add 0 0 "a" "b") 2).bind
        fun gf => backward gf 2).map
        (fun gf => (gradOf gf 2, gradOf gf 0, gradOf gf 1)) = some (1, 2, 2) := by
  have h := claim_C3_amended_accumulation 3 4 "a" "b"
  refine ⟨by norm_num, ?_, (claim_C3_amended_accumulation 0 0 "a" "b").1⟩
  have h4 := h.2.2.2 (by norm_num)
  norm_num at h4 ⊢
  exact h4

/-- C5 counterexample: `new_full` stores its gradient argument — the node the
source's own `build_topo` assertion builds, `new_full(3.0, vec![], 3.2, Add,
"d")`, starts with gradient 3.2 = 16/5, not 0. -/
theorem claim_C5_counterexample :
    (Scalar.new_full 3 [] (16 / 5) Operation.Add "d").grad = 16 / 5
    ∧ ((16 : ℚ) / 5) ≠ 0 :=
  ⟨rfl, by norm_num⟩

/-- C5 amended: a leaf built by `new` starts with gradient 0, and every node
built by the four operator implementations starts with gradient 0 (they pass
`0.0`), but `new_full` initialises the gradient to its `_grad` argument
rather than ignoring it. -/
theorem claim_C5_amended_fresh_gradients (d gr : ℚ) (ch : List Nat)
    (op : Operation) (l : String) (g : Graph) (i j : Nat) :
    (Scalar.new d l).grad = 0
    ∧ (Scalar.new_full d ch gr op l).grad = gr
    ∧ gradOf (scalarAdd g i j).1 g.length = 0
    ∧ gradOf (scalarSub g i j).1 g.length = 0
    ∧ gradOf (scalarMul g i j).1 g.length = 0
    ∧ gradOf (scalarDiv g i j).1 g.length = 0 := by
  refine ⟨rfl, rfl, ?_, ?_, ?_, ?_⟩ <;>
    simp [gradOf, scalarAdd, scalarSub, scalarMul, scalarDiv, Scalar.new_full]

/-- C7 counterexample: two nodes with identical value, operand list, operation
and even label, differing solely in the accumulated gradient, compare
*unequal* — the derived `PartialEq` includes the gradient cells, ignoring
only `_label`. -/
theorem claim_C7_counterexample :
    scalarEq [Scalar.new 3 "x", Scalar.new_full 3 [] 1 Operation.Base "x"] 2 0 1
      = false
    ∧ (Scalar.new 3 "x").data = (Scalar.new_full 3 [] 1 Operation.Base "x").data
    ∧ (Scalar.new 3 "x")._children =
        (Scalar.new_full 3 [] 1 Operation.Base "x")._children
    ∧ (Scalar.new 3 "x")._op = (Scalar.new_full 3 [] 1 Operation.Base "x")._op
    ∧ (Scalar.new 3 "x")._label =
        (Scalar.new_full 3 [] 1 Operation.Base "x")._label
    ∧ (Scalar.new 3 "x").grad ≠ (Scalar.new_full 3 [] 1 Operation.Base "x").grad := by
  refine ⟨by with_unfolding_all rfl, rfl, rfl, rfl, rfl, ?_⟩
  norm_num [Scalar.new, Scalar.new_full]

/-- C6: dividing by a node with value 0 is *not* silently propagated per IEEE:
`0.0 / 0.0` is NaN, and `split_f32` of NaN panics at the `parse::<u32>()`
`expect` (NaN fails `x == x.floor()` and prints as `"NaN"`), so constructing
the quotient node panics; `1.0 / 0.0` is `+inf`, but the stored node value is
the saturated `as u32` cast `4294967295`, which reads back as `4294967295.0`,
not infinity (and symmetrically `-1.0 / 0.0`). -/
theorem claim_C6_div_by_zero_panics_or_saturates :
    fdiv (FVal.fin 0) (FVal.fin 0) = FVal.nan
    ∧ fdivNode (FVal.fin 0) (FVal.fin 0) = none
    ∧ fdiv (FVal.fin 1) (FVal.fin 0) = FVal.inf
    ∧ fdivNode (FVal.fin 1) (FVal.fin 0) = some (FScalar.mk 1 4294967295 0 1)
    ∧ (fdivNode (FVal.fin 1) (FVal.fin 0)).map join_f32 = some 4294967295
    ∧ fdivNode (FVal.fin (-1)) (FVal.fin 0) =
        some (FScalar.mk (-1) 4294967295 0 1) := by
  refine ⟨by with_unfolding_all rfl, by with_unfolding_all rfl,
    by with_unfolding_all rfl, by with_unfolding_all rfl,
    by with_unfolding_all rfl, by with_unfolding_all rfl⟩

/-- C8: each operator returns a new node appended to the arena whose operand
list is exactly `[i, j]` in that order with the matching tag and gradient 0,
and the first `g.length` arena entries — every pre-existing node, operands
included — are unchanged. -/
theorem claim_C8_operators_fresh_node_no_mutation (g : Graph) (i j : Nat) :
    ((scalarAdd g i j).1 =
        g ++ [Scalar.new_full (dataOf g i + dataOf g j) [i, j] 0 Operation.Add ""]
      ∧ (scalarAdd g i j).2 = g.length
      ∧ (scalarAdd g i j).1.take g.length = g)
    ∧ ((scalarSub g i j).1 =
        g ++ [Scalar.new_full (dataOf g i - dataOf g j) [i, j] 0 Operation.Sub ""]
      ∧ (scalarSub g i j).2 = g.length
      ∧ (scalarSub g i j).1.take g.length = g)
    ∧ ((scalarMul g i j).1 =
        g ++ [Scalar.new_full (dataOf g i * dataOf g j) [i, j] 0 Operation.Mul ""]
      ∧ (scalarMul g i j).2 = g.length
      ∧ (scalarMul g i j).1.take g.length = g)
    ∧ ((scalarDiv g i j).1 =
        g ++ [Scalar.new_full (dataOf g i / dataOf g j) [i, j] 0 Operation.Div ""]
      ∧ (scalarDiv g i j).2 = g.length
      ∧ (scalarDiv g i j).1.take g.length = g) := by
  refine ⟨⟨rfl, rfl, ?_⟩, ⟨rfl, rfl, ?_⟩, ⟨rfl, rfl, ?_⟩, ⟨rfl, rfl, ?_⟩⟩ <;>
    simp [scalarAdd, scalarSub, scalarMul, scalarDiv]

/-- C9: `derive` on a node with exactly one operand panics (reads
`_children[1]` out of bounds before dispatching on the tag), is total on
nodes with zero or at least two operands, and `backward` on a graph whose
topology contains such a node panics as well. -/
theorem claim_C9_single_operand_panics (g : Graph) (i : Nat) (n : Scalar)
    (h : g[i]? = some n) :
    (n._children.length = 1 → derive g i = none)
    ∧ (n._children.length ≠ 1 → ∃ g2, derive g i = some g2)
    ∧ backward gUnary 1 = none := by
  refine ⟨?_, ?_, by with_unfolding_all rfl⟩
  · intro h1
    obtain ⟨c, hc⟩ := List.length_eq_one.mp h1
    simp [derive, h, hc]
  · intro h1
    rw [← Option.isSome_iff_exists]
    rcases hch : n._children with _ | ⟨c0, cs⟩
    · simp [derive, h, hch]
    · rcases cs with _ | ⟨c1, t⟩
      · exact absurd (by simp [hch]) h1
      · cases hop : n._op <;> simp [derive, h, hch, hop]

theorem claim_C9_witness :
    gUnary[1]? = some (Scalar.new_full 5 [0] 0 Operation.Add "u")
    ∧ derive gUnary 1 = none := by
  refine ⟨rfl, ?_⟩
  exact (claim_C9_single_operand_panics gUnary 1
    (Scalar.new_full 5 [0] 0 Operation.Add "u") rfl).1 rfl

/-- C10: when a node's two operand references alias the same node, `derive`
reads both original gradients before either write, so the second per-operand
write replaces the first instead of stacking on it: the aliased operand ends
with exactly one upstream contribution (`gradOf g j + n.grad` for `Add`), and
concretely `backward` on `c = a + a` leaves `gradient_of(a) = 1`, not 2. -/
theorem claim_C10_aliased_operands_lose_contribution (g : Graph) (i j : Nat)
    (n : Scalar) (hj : j < g.length) (h : g[i]? = some n)
    (hch : n._children = [j, j]) (hop : n._op = Operation.Add) :
    (∃ g2, derive g i = some g2 ∧ gradOf g2 j = gradOf g j + n.grad)
    ∧ ∀ (va : ℚ) (la : String),
        (backward (gAlias va la) 1).map (fun gf => gradOf gf 0) = some 1 := by
  constructor
  · refine ⟨update_grad (update_grad g j (gradOf g j + n.grad)) j
      (gradOf g j + n.grad), ?_, ?_⟩
    · simp [derive, h, hch, hop]
    · rw [gradOf_update_self]
      rw [update_grad_length]
      exact hj
  · intro va la
    simp [gAlias, scalarAdd, Scalar.new, Scalar.new_full, dataOf, backward,
      update_grad, parse_topology, parse_go, discover, childrenOf, derive,
      run_backward, gradOf, scalarEq, List.set]

theorem claim_C10_witness :
    (∃ g2, derive (gAlias 5 "a") 1 = some g2 ∧ gradOf g2 0 = gradOf (gAlias 5 "a") 0 + 0)
    ∧ (backward (gAlias 7 "z") 1).map (fun gf => gradOf gf 0) = some 1 := by
  have h := claim_C10_aliased_operands_lose_contribution (gAlias 5 "a") 1 0
    (Scalar.new_full 10 [0, 0] 0 Operation.Add "") (by norm_num [gAlias, scalarAdd])
    (by with_unfolding_all rfl) rfl rfl
  exact ⟨h.1, h.2 7 "z"⟩

/-! ## Topological sequencer: structural-equality infrastructure and the C4 theorems -/

theorem map_eq_iff_zip {A B : Type} (F : A → B) :
    ∀ (l1 l2 : List A), (l1.map F = l2.map F) ↔
      (l1.length = l2.length ∧ ∀ p ∈ l1.zip l2, F p.1 = F p.2)
  | [], [] => by simp
  | [], b :: l2 => by simp
  | a :: l1, [] => by simp
  | a :: l1, b :: l2 => by
    simp only [List.map_cons, List.cons.injEq, List.length_cons, List.zip_cons_cons,
      List.mem_cons, add_left_inj, forall_eq_or_imp]
    rw [map_eq_iff_zip F l1 l2]
    tauto

theorem shape_stable (g : Graph) (hwf : WF g) :
    ∀ i, i < g.length → ∀ f f', i < f → i < f' → shape g f i = shape g f' i := by
  intro i
  induction i using Nat.strong_induction_on with
  | _ i ih =>
    intro hi f f' hf hf'
    obtain ⟨fu, rfl⟩ : ∃ fu, f = fu + 1 := ⟨f - 1, by omega⟩
    obtain ⟨fu', rfl⟩ : ∃ fu', f' = fu' + 1 := ⟨f' - 1, by omega⟩
    cases hg : g[i]? with
    | none => simp only [shape, hg]
    | some n =>
      simp only [shape, hg]
      have hch : ∀ c ∈ n._children, c < i := by
        intro c hc
        exact hwf i hi c (by simp [childrenOf, hg, hc])
      congr 1
      apply List.map_congr_left
      intro c hc
      have hci := hch c hc
      exact ih c hci (lt_trans hci hi) fu fu' (by omega) (by omega)

theorem scalarEq_iff_shape (g : Graph) (hwf : WF g) :
    ∀ i, i < g.length → ∀ j, j < g.length → ∀ f, i < f → j < f →
      (scalarEq g f i j = true ↔ shape g f i = shape g f j) := by
  intro i
  induction i using Nat.strong_induction_on with
  | _ i ih =>
    intro hi j hj f hfi hfj
    obtain ⟨fu, rfl⟩ : ∃ fu, f = fu + 1 := ⟨f - 1, by omega⟩
    obtain ⟨ni, hni⟩ : ∃ ni, g[i]? = some ni := ⟨g[i], List.getElem?_eq_getElem hi⟩
    obtain ⟨nj, hnj⟩ : ∃ nj, g[j]? = some nj := ⟨g[j], List.getElem?_eq_getElem hj⟩
    have hchi : ∀ c ∈ ni._children, c < i := by
      intro c hc
      exact hwf i hi c (by simp [childrenOf, hni, hc])
    have hchj : ∀ c ∈ nj._children, c < j := by
      intro c hc
      exact hwf j hj c (by simp [childrenOf, hnj, hc])
    simp only [scalarEq, shape, hni, hnj, Bool.and_eq_true, decide_eq_true_eq,
      List.all_eq_true, STree.mk.injEq]
    rw [map_eq_iff_zip]
    constructor
    · rintro ⟨⟨⟨⟨hd, hg'⟩, ho⟩, hl⟩, hz⟩
      refine ⟨hd, hg', ho, hl, ?_⟩
      intro p hp
      obtain ⟨hp1, hp2⟩ := List.of_mem_zip hp
      exact (ih p.1 (hchi p.1 hp1) (lt_trans (hchi p.1 hp1) hi)
        p.2 (lt_trans (hchj p.2 hp2) hj) fu
        (by have := hchi p.1 hp1; omega) (by have := hchj p.2 hp2; omega)).mp (hz p hp)
    · rintro ⟨hd, hg', ho, hl, hz⟩
      refine ⟨⟨⟨⟨hd, hg'⟩, ho⟩, hl⟩, ?_⟩
      intro p hp
      obtain ⟨hp1, hp2⟩ := List.of_mem_zip hp
      exact (ih p.1 (hchi p.1 hp1) (lt_trans (hchi p.1 hp1) hi)
        p.2 (lt_trans (hchj p.2 hp2) hj) fu
        (by have := hchi p.1 hp1; omega) (by have := hchj p.2 hp2; omega)).mpr (hz p hp)

theorem sEq_refl (g : Graph) (hwf : WF g) (i : Nat) (hi : i < g.length) :
    scalarEq g g.length i i = true :=
  (scalarEq_iff_shape g hwf i hi i hi g.length hi hi).mpr rfl

theorem sEq_trans (g : Graph) (hwf : WF g) (i j k : Nat) (hi : i < g.length)
    (hj : j < g.length) (hk : k < g.length)
    (h1 : scalarEq g g.length i j = true) (h2 : scalarEq g g.length j k = true) :
    scalarEq g g.length i k = true :=
  (scalarEq_iff_shape g hwf i hi k hk g.length hi hk).mpr
    (((scalarEq_iff_shape g hwf i hi j hj g.length hi hj).mp h1).trans
      ((scalarEq_iff_shape g hwf j hj k hk g.length hj hk).mp h2))

theorem sEq_children (g : Graph) (hwf : WF g) (i j : Nat) (hi : i < g.length)
    (hj : j < g.length) (h : scalarEq g g.length i j = true) :
    ∀ b ∈ childrenOf g j, ∃ a ∈ childrenOf g i, scalarEq g g.length a b = true := by
  have hs := (scalarEq_iff_shape g hwf i hi j hj g.length hi hj).mp h
  obtain ⟨lu, hL⟩ : ∃ lu, g.length = lu + 1 := ⟨g.length - 1, by omega⟩
  obtain ⟨ni, hni⟩ : ∃ ni, g[i]? = some ni := ⟨g[i], List.getElem?_eq_getElem hi⟩
  obtain ⟨nj, hnj⟩ : ∃ nj, g[j]? = some nj := ⟨g[j], List.getElem?_eq_getElem hj⟩
  rw [hL] at hs
  simp only [shape, hni, hnj, STree.mk.injEq] at hs
  obtain ⟨-, -, -, hmap⟩ := hs
  rw [map_eq_iff_zip] at hmap
  obtain ⟨hlen, hzip⟩ := hmap
  intro b hb
  simp only [childrenOf, hnj, Option.map_some', Option.getD_some] at hb
  obtain ⟨k, hk, he⟩ := List.getElem_of_mem hb
  subst he
  have hk' : k < ni._children.length := by omega
  refine ⟨ni._children[k], ?_, ?_⟩
  · simp only [childrenOf, hni, Option.map_some', Option.getD_some]
    exact List.getElem_mem hk'
  · have hpair : (ni._children[k], nj._children[k]) ∈ ni._children.zip nj._children := by
      rw [List.mem_iff_getElem]
      refine ⟨k, ?_, ?_⟩
      · simp [List.length_zip]
        omega
      · simp [List.getElem_zip]
    have hsh := hzip _ hpair
    have ha : ni._children[k] < i := hwf i hi _ (by
      simp only [childrenOf, hni, Option.map_some', Option.getD_some]
      exact List.getElem_mem hk')
    have hb' : nj._children[k] < j := hwf j hj _ (by
      simp only [childrenOf, hnj, Option.map_some', Option.getD_some]
      exact List.getElem_mem hk)
    have ha2 : ni._children[k] < g.length := lt_trans ha hi
    have hb2 : nj._children[k] < g.length := lt_trans hb' hj
    refine (scalarEq_iff_shape g hwf _ ha2 _ hb2 g.length ha2 hb2).mpr ?_
    calc shape g g.length ni._children[k]
        = shape g lu ni._children[k] := by
          apply shape_stable g hwf _ ha2 <;> omega
      _ = shape g lu nj._children[k] := hsh
      _ = shape g g.length nj._children[k] := by
          apply shape_stable g hwf _ hb2 <;> omega

theorem reaches_le (g : Graph) (hwf : WF g) (i k : Nat) (h : Reaches g i k) :
    k ≤ i := by
  induction h with
  | refl i => exact le_refl i
  | step i j k hj hr ih =>
    have hij : j < i := by
      by_cases hi : i < g.length
      · exact hwf i hi j hj
      · exfalso
        have hnone : g[i]? = none := by
          rw [List.getElem?_eq_none_iff]
          omega
        simp [childrenOf, hnone] at hj
    omega

theorem reaches_trans (g : Graph) (i j k : Nat) (h1 : Reaches g i j)
    (h2 : Reaches g j k) : Reaches g i k := by
  induction h1 with
  | refl i => exact h2
  | step a b c hb hr ih => exact Reaches.step a b k hb (ih h2)

theorem reaches_child (g : Graph) (r c j : Nat) (h : Reaches g r c)
    (hj : j ∈ childrenOf g c) : Reaches g r j :=
  reaches_trans g r c j h (Reaches.step c j j hj (Reaches.refl j))

theorem nodup_lt_length_le (l : List Nat) (n : Nat) (hnd : l.Nodup)
    (hlt : ∀ x ∈ l, x < n) : l.length ≤ n := by
  classical
  have h1 : l.toFinset.card = l.length := List.toFinset_card_of_nodup hnd
  have h2 : l.toFinset ⊆ Finset.range n := by
    intro x hx
    rw [Finset.mem_range]
    exact hlt x (List.mem_toFinset.mp hx)
  have := Finset.card_le_card h2
  rw [h1, Finset.card_range] at this
  exact this

theorem discover_fold_general (g : Graph) (hwf : WF g) :
    ∀ (cs vis ns topo : List Nat), (∀ c ∈ cs, c < g.length) → vis.Nodup →
    ∃ news : List Nat,
      cs.foldl (discover g) (vis, ns, topo) = (vis ++ news, ns ++ news, topo ++ news)
      ∧ (∀ x ∈ news, x ∈ cs ∧ x ∉ vis)
      ∧ (vis ++ news).Nodup
      ∧ ∀ c ∈ cs, ∃ u ∈ vis ++ news, scalarEq g g.length u c = true := by
  intro cs
  induction cs with
  | nil =>
    intro vis ns topo hcs hnd
    exact ⟨[], by simp, by simp, by simpa using hnd, by simp⟩
  | cons c cs ih =>
    intro vis ns topo hcs hnd
    have hc : c < g.length := hcs c (List.mem_cons_self c cs)
    rw [List.foldl_cons]
    by_cases hv : vis.any (fun v => scalarEq g g.length v c) = true
    · have hstep : discover g (vis, ns, topo) c = (vis, ns, topo) := by
        simp only [discover]
        rw [if_pos hv]
      rw [hstep]
      obtain ⟨news, hfold, hmem, hnd2, hcov⟩ :=
        ih vis ns topo (fun x hx => hcs x (List.mem_cons_of_mem c hx)) hnd
      obtain ⟨v, hvmem, hveq⟩ := List.any_eq_true.mp hv
      refine ⟨news, hfold, ?_, hnd2, ?_⟩
      · exact fun x hx => ⟨List.mem_cons_of_mem c (hmem x hx).1, (hmem x hx).2⟩
      · intro x hx
        rcases List.mem_cons.mp hx with rfl | hx2
        · exact ⟨v, List.mem_append_left news hvmem, hveq⟩
        · exact hcov x hx2
    · have hcnot : c ∉ vis := by
        intro hcv
        exact hv (List.any_eq_true.mpr ⟨c, hcv, sEq_refl g hwf c hc⟩)
      have hstep : discover g (vis, ns, topo) c =
          (vis ++ [c], ns ++ [c], topo ++ [c]) := by
        simp only [discover]
        rw [if_neg hv]
      rw [hstep]
      have hnd1 : (vis ++ [c]).Nodup := by
        rw [List.nodup_append]
        exact ⟨hnd, List.nodup_singleton c, by simpa using hcnot⟩
      obtain ⟨news, hfold, hmem, hnd2, hcov⟩ :=
        ih (vis ++ [c]) (ns ++ [c]) (topo ++ [c])
          (fun x hx => hcs x (List.mem_cons_of_mem c hx)) hnd1
      refine ⟨c :: news, ?_, ?_, ?_, ?_⟩
      · rw [hfold]
        simp
      · intro x hx
        rcases List.mem_cons.mp hx with rfl | hx2
        · exact ⟨List.mem_cons_self x cs, hcnot⟩
        · have h1 := hmem x hx2
          refine ⟨List.mem_cons_of_mem c h1.1, ?_⟩
          intro hxv
          exact h1.2 (List.mem_append_left [c] hxv)
      · have : vis ++ c :: news = (vis ++ [c]) ++ news := by simp
        rw [this]
        exact hnd2
      · intro x hx
        have heq : vis ++ c :: news = (vis ++ [c]) ++ news := by simp
        rcases List.mem_cons.mp hx with rfl | hx2
        · refine ⟨x, ?_, sEq_refl g hwf x hc⟩
          rw [heq]
          exact List.mem_append_left news (List.mem_append_right vis (List.mem_singleton_self x))
        · obtain ⟨u, hu, hueq⟩ := hcov x hx2
          refine ⟨u, ?_, hueq⟩
          rw [heq]
          exact hu

theorem parse_go_spec (g : Graph) (hwf : WF g) (r : Nat) (hr : r < g.length) :
    ∀ (fuel : Nat) (queue vis : List Nat),
      (∀ q ∈ queue, Reaches g r q) →
      (∀ v ∈ vis, v < r) →
      vis.Nodup →
      (∀ v ∈ vis, Reaches g r v) →
      queue ⊆ r :: vis →
      (∀ t ∈ r :: vis, t ∉ queue → ∀ c ∈ childrenOf g t,
        ∃ u ∈ r :: vis, scalarEq g g.length u c = true) →
      queue.length + (g.length - vis.length) ≤ fuel →
      ∃ vis2 : List Nat,
        parse_go g fuel queue vis (r :: vis) = r :: vis2
        ∧ (∀ v ∈ vis2, v < r)
        ∧ (r :: vis2).Nodup
        ∧ (∀ v ∈ vis2, Reaches g r v)
        ∧ ∀ t ∈ r :: vis2, ∀ c ∈ childrenOf g t,
            ∃ u ∈ r :: vis2, scalarEq g g.length u c = true := by
  intro fuel
  induction fuel with
  | zero =>
    intro queue vis hq hvlt hnd hvr hsub hclo hfuel
    have hq0 : queue = [] := by
      cases queue with
      | nil => rfl
      | cons a l => simp at hfuel
    subst hq0
    refine ⟨vis, rfl, hvlt, ?_, hvr, ?_⟩
    · rw [List.nodup_cons]
      refine ⟨?_, hnd⟩
      intro hrv
      exact absurd rfl (Nat.ne_of_lt (hvlt r hrv)).symm
    · intro t ht c hc
      exact hclo t ht (by simp) c hc
  | succ fuel ih =>
    intro queue vis hq hvlt hnd hvr hsub hclo hfuel
    cases queue with
    | nil =>
      refine ⟨vis, rfl, hvlt, ?_, hvr, ?_⟩
      · rw [List.nodup_cons]
        refine ⟨?_, hnd⟩
        intro hrv
        exact absurd rfl (Nat.ne_of_lt (hvlt r hrv)).symm
      · intro t ht c hc
        exact hclo t ht (by simp) c hc
    | cons c rest =>
      have hcr : Reaches g r c := hq c (List.mem_cons_self c rest)
      have hcle : c ≤ r := reaches_le g hwf r c hcr
      have hclen : c < g.length := lt_of_le_of_lt hcle hr
      have hcs : ∀ x ∈ childrenOf g c, x < c := hwf c hclen
      have hcs2 : ∀ x ∈ childrenOf g c, x < g.length :=
        fun x hx => lt_trans (hcs x hx) hclen
      obtain ⟨news, hfold, hmem, hnd2, hcov⟩ :=
        discover_fold_general g hwf (childrenOf g c) vis [] (r :: vis) hcs2 hnd
      have hstep : parse_go g (fuel + 1) (c :: rest) vis (r :: vis)
          = parse_go g fuel (rest ++ news) (vis ++ news) (r :: (vis ++ news)) := by
        simp only [parse_go]
        rw [hfold]
        simp
      have hnews_lt_c : ∀ x ∈ news, x < c := fun x hx => hcs x (hmem x hx).1
      have hq2 : ∀ q ∈ rest ++ news, Reaches g r q := by
        intro q hqm
        rcases List.mem_append.mp hqm with h1 | h2
        · exact hq q (List.mem_cons_of_mem c h1)
        · exact reaches_child g r c q hcr (hmem q h2).1
      have hvlt2 : ∀ v ∈ vis ++ news, v < r := by
        intro v hv
        rcases List.mem_append.mp hv with h1 | h2
        · exact hvlt v h1
        · exact lt_of_lt_of_le (hnews_lt_c v h2) hcle
      have hvr2 : ∀ v ∈ vis ++ news, Reaches g r v := by
        intro v hv
        rcases List.mem_append.mp hv with h1 | h2
        · exact hvr v h1
        · exact reaches_child g r c v hcr (hmem v h2).1
      have hsub2 : rest ++ news ⊆ r :: (vis ++ news) := by
        intro q hqm
        rcases List.mem_append.mp hqm with h1 | h2
        · rcases List.mem_cons.mp (hsub (List.mem_cons_of_mem c h1)) with h3 | h4
          · exact h3 ▸ List.mem_cons_self r (vis ++ news)
          · exact List.mem_cons_of_mem r (List.mem_append_left news h4)
        · exact List.mem_cons_of_mem r (List.mem_append_right vis h2)
      have hclo2 : ∀ t ∈ r :: (vis ++ news), t ∉ rest ++ news →
          ∀ cc ∈ childrenOf g t, ∃ u ∈ r :: (vis ++ news),
            scalarEq g g.length u cc = true := by
        intro t ht htq cc hcc
        by_cases htc : t = c
        · subst htc
          obtain ⟨u, hu, hueq⟩ := hcov cc hcc
          exact ⟨u, List.mem_cons_of_mem r hu, hueq⟩
        · have ht_old : t ∈ r :: vis := by
            rcases List.mem_cons.mp ht with h1 | h2
            · exact h1 ▸ List.mem_cons_self r vis
            · rcases List.mem_append.mp h2 with h3 | h4
              · exact List.mem_cons_of_mem r h3
              · exact absurd (List.mem_append_right rest h4) htq
          have ht_notq : t ∉ c :: rest := by
            intro h'
            rcases List.mem_cons.mp h' with h1 | h2
            · exact htc h1
            · exact htq (List.mem_append_left news h2)
          obtain ⟨u, hu, hueq⟩ := hclo t ht_old ht_notq cc hcc
          rcases List.mem_cons.mp hu with h1 | h2
          · exact ⟨u, h1 ▸ List.mem_cons_self r (vis ++ news), hueq⟩
          · exact ⟨u, List.mem_cons_of_mem r (List.mem_append_left news h2), hueq⟩
      have hbound : (vis ++ news).length ≤ g.length := by
        apply nodup_lt_length_le _ _ hnd2
        intro x hx
        rcases List.mem_append.mp hx with h1 | h2
        · exact lt_trans (hvlt x h1) hr
        · exact lt_trans (hnews_lt_c x h2) hclen
      have hfuel2 : (rest ++ news).length + (g.length - (vis ++ news).length) ≤ fuel := by
        simp only [List.length_append] at hbound ⊢
        simp only [List.length_cons] at hfuel
        omega
      obtain ⟨vis2, hres, hp1, hp2, hp3, hp4⟩ :=
        ih (rest ++ news) (vis ++ news) hq2 hvlt2 hnd2 hvr2 hsub2 hclo2 hfuel2
      exact ⟨vis2, hstep.trans hres, hp1, hp2, hp3, hp4⟩

theorem scalarEq_true_valid (g : Graph) (f i j : Nat)
    (h : scalarEq g f i j = true) : i < g.length ∧ j < g.length := by
  cases f with
  | zero => simp [scalarEq] at h
  | succ fu =>
    rw [scalarEq] at h
    cases hi : g[i]? with
    | none => rw [hi] at h; cases hj : g[j]? <;> rw [hj] at h <;> simp at h
    | some ni =>
      cases hj : g[j]? with
      | none => rw [hi, hj] at h; simp at h
      | some nj =>
        constructor
        · exact (List.getElem?_eq_some_iff.mp hi).1
        · exact (List.getElem?_eq_some_iff.mp hj).1

theorem parse_topology_spec (g : Graph) (hwf : WF g) (r : Nat)
    (hr : r < g.length) :
    ∃ vis2 : List Nat,
      parse_topology g r = r :: vis2
      ∧ (r :: vis2).Nodup
      ∧ (∀ v ∈ vis2, Reaches g r v)
      ∧ ∀ t ∈ r :: vis2, ∀ c ∈ childrenOf g t,
          ∃ u ∈ r :: vis2, scalarEq g g.length u c = true := by
  obtain ⟨vis2, h1, h2, h3, h4, h5⟩ :=
    parse_go_spec g hwf r hr (g.length + 1) [r] []
      (by
        intro q hq
        rcases List.mem_singleton.mp hq with rfl
        exact Reaches.refl q)
      (by simp) (by simp) (by simp)
      (by simp)
      (by
        intro t ht htq c hc
        rcases List.mem_singleton.mp ht with rfl
        exact absurd (List.mem_singleton_self t) htq)
      (by simp [Nat.add_comm])
  exact ⟨vis2, h1, h3, h4, h5⟩

theorem parse_topology_covers (g : Graph) (hwf : WF g) (r : Nat)
    (hr : r < g.length) (k : Nat) (hk : Reaches g r k) :
    ∃ u ∈ parse_topology g r, scalarEq g g.length u k = true := by
  obtain ⟨vis2, h1, hnd, hreach, hclo⟩ := parse_topology_spec g hwf r hr
  have htopo_lt : ∀ t ∈ r :: vis2, t < g.length := by
    intro t ht
    rcases List.mem_cons.mp ht with rfl | h2
    · exact hr
    · exact lt_of_le_of_lt (reaches_le g hwf r t (hreach t h2)) hr
  suffices h : ∀ i k2, Reaches g i k2 → ∀ t ∈ r :: vis2,
      scalarEq g g.length t i = true →
      ∃ u ∈ r :: vis2, scalarEq g g.length u k2 = true by
    rw [h1]
    exact h r k hk r (List.mem_cons_self r vis2) (sEq_refl g hwf r hr)
  intro i k2 hik
  induction hik with
  | refl i =>
    intro t ht hti
    exact ⟨t, ht, hti⟩
  | step i j k2 hj hjk ihj =>
    intro t ht hti
    have hti_lt : t < g.length := htopo_lt t ht
    have hi_lt : i < g.length := (scalarEq_true_valid g g.length t i hti).2
    have hj_lt : j < g.length := by
      have := hwf i hi_lt j hj
      omega
    obtain ⟨a, ha, haj⟩ := sEq_children g hwf t i hti_lt hi_lt hti j hj
    have ha_lt : a < g.length := by
      have := hwf t hti_lt a ha
      omega
    obtain ⟨u2, hu2, hu2a⟩ := hclo t ht a ha
    have hu2_lt : u2 < g.length := htopo_lt u2 hu2
    exact ihj u2 hu2
      (sEq_trans g hwf u2 a j hu2_lt ha_lt hj_lt hu2a haj)

theorem parse_topology_leaf_root (g : Graph) (r : Nat)
    (h : childrenOf g r = []) : parse_topology g r = [r] := by
  unfold parse_topology
  simp only [parse_go, h, List.foldl_nil]
  cases hL : g.length with
  | zero => simp [parse_go]
  | succ n => simp [parse_go]

/-- C4 amended: on every well-formed graph the Topological Sequencer outputs a
duplicate-free sequence of nodes reachable from the root; every reachable node
is represented by an entry *structurally equal* to it (value, gradient,
operation and operands compared recursively, labels ignored), but distinct
nodes that are structurally identical are collapsed into a single entry
rather than each appearing; a root with no operands yields `[root]`; and
re-discovery of a visited node causes neither duplication nor
non-termination (the loop provably empties its queue within the fuel). -/
theorem claim_C4_amended_topology (g : Graph) (r : Nat) (hwf : WF g)
    (hr : r < g.length) :
    (parse_topology g r).Nodup
    ∧ (∀ t ∈ parse_topology g r, Reaches g r t)
    ∧ (∀ k, Reaches g r k →
        ∃ u ∈ parse_topology g r, scalarEq g g.length u k = true)
    ∧ (childrenOf g r = [] → parse_topology g r = [r]) := by
  obtain ⟨vis2, h1, hnd, hreach, hclo⟩ := parse_topology_spec g hwf r hr
  refine ⟨h1 ▸ hnd, ?_, fun k hk => parse_topology_covers g hwf r hr k hk,
    fun h => parse_topology_leaf_root g r h⟩
  rw [h1]
  intro t ht
  rcases List.mem_cons.mp ht with rfl | h2
  · exact Reaches.refl t
  · exact hreach t h2

theorem claim_C4_witness :
    WF gTwoPath ∧ 5 < gTwoPath.length ∧ (parse_topology gTwoPath 5).Nodup := by
  refine ⟨?_, ?_, ?_⟩
  · with_unfolding_all decide
  · with_unfolding_all decide
  · exact (claim_C4_amended_topology gTwoPath 5 (by with_unfolding_all decide)
      (by with_unfolding_all decide)).1

/-- C4 counterexample: the two structurally identical but *distinct* leaves of
`gTwins` (same value 3, no operands, gradient 0, different labels) are not
each included once: node 1 is reachable from the root yet absent from the
sequence `[2, 0]` — the `visited` dedup collapses it onto node 0. -/
theorem claim_C4_counterexample :
    parse_topology gTwins 2 = [2, 0]
    ∧ gTwins[1]? ≠ gTwins[0]?
    ∧ Reaches gTwins 2 1
    ∧ 1 ∉ parse_topology gTwins 2 := by
  refine ⟨by with_unfolding_all rfl, by with_unfolding_all decide, ?_, ?_⟩
  · refine Reaches.step 2 1 1 ?_ (Reaches.refl 1)
    with_unfolding_all decide
  · rw [show parse_topology gTwins 2 = [2, 0] from by with_unfolding_all rfl]
    decide

/-- Relabeling never changes the derived `PartialEq`: `scalarEq` reads only
value, gradient, operation and operands, at every fuel and every pair of
indices. -/
theorem scalarEq_relabel (g : Graph) (ls : Nat → String) :
    ∀ (fuel i j : Nat), scalarEq (relabel g ls) fuel i j = scalarEq g fuel i j := by
  intro fuel
  induction fuel with
  | zero => intro i j; rfl
  | succ fu ih =>
    intro i j
    have hre : ∀ k, (relabel g ls)[k]? = (g[k]?).map
        fun n : Scalar => { n with _label := ls k } := by
      intro k
      simp [relabel, List.getElem?_mapIdx]
    simp only [scalarEq, hre]
    cases hi : g[i]? with
    | none => simp
    | some ni =>
      cases hj : g[j]? with
      | none => simp
      | some nj =>
        simp [ih]

/-- C7 amended: node equality compares value, operands, operation *and the
accumulated gradient*, ignoring only the label, on all nodes: on a well-formed
graph two nodes compare equal exactly when their label-free recursive
unfoldings (value, gradient, operation, and the operands unfolded
recursively) coincide; the comparison is invariant under arbitrary
relabeling of the whole graph; and on a pair of leaves it is precisely the
conjunction of the value, gradient and operation comparisons, independent of
both labels. -/
theorem claim_C7_amended_equality_includes_gradient (g : Graph) (hwf : WF g)
    (i j : Nat) (hi : i < g.length) (hj : j < g.length) (ls : Nat → String) :
    (scalarEq g g.length i j = true ↔ shape g g.length i = shape g g.length j)
    ∧ scalarEq (relabel g ls) g.length i j = scalarEq g g.length i j
    ∧ ∀ (d d2 gr gr2 : ℚ) (op op2 : Operation) (l l2 : String),
        scalarEq [Scalar.mk d [] gr op l, Scalar.mk d2 [] gr2 op2 l2] 2 0 1 =
          (decide (d = d2) && decide (gr = gr2) && decide (op = op2)) := by
  refine ⟨scalarEq_iff_shape g hwf i hi j hj g.length hi hj,
    scalarEq_relabel g ls g.length i j, ?_⟩
  intro d d2 gr gr2 op op2 l l2
  simp [scalarEq]

theorem claim_C7_amended_witness :
    WF gTwoPath
    ∧ (scalarEq gTwoPath gTwoPath.length 2 4 = true ↔
        shape gTwoPath gTwoPath.length 2 = shape gTwoPath gTwoPath.length 4)
    ∧ scalarEq (relabel gTwoPath fun _ => "renamed") gTwoPath.length 2 4 =
        scalarEq gTwoPath gTwoPath.length 2 4 := by
  have h := claim_C7_amended_equality_includes_gradient gTwoPath
    (by with_unfolding_all decide) 2 4 (by with_unfolding_all decide)
    (by with_unfolding_all decide) (fun _ => "renamed")
  exact ⟨by with_unfolding_all decide, h.1, h.2.1⟩

end Minigrad
